import Mathlib

/-!
Verification of a DynamoDB-style typed-JSON transformer (main.go).

The program converts a typed JSON document (scalar values wrapped in
single-key tag objects such as an S, N, BOOL, NULL, M or L tag) into plain
JSON.  We embed the program shallowly: Go dynamic values (interface objects
produced by json.Unmarshal, plus the int64 produced by Time.Unix) become the
inductive type GoVal; Go maps become association lists whose order stands
for one (arbitrary) map-iteration order, so theorems quantified over the
list cover every iteration order; a Go panic from a failed type assertion
becomes the value none of an Option-returning function.

Library calls made by the program are modelled concretely from their
documented behaviour: strings.TrimSpace, time.Parse with the RFC3339
layout followed by Time.Unix, strconv.ParseFloat (with in-range finite
values given as exact rationals, abstracting IEEE 754 rounding, and the
overflow range error modelled exactly), and strings.Contains.
-/

namespace TransformSpec

/-- A 64-bit floating point value as produced by strconv.ParseFloat,
with the finite case carried as an exact rational (IEEE 754 rounding of
finite values is abstracted away; infinities and NaN are explicit). -/
inductive GoFloat where
  | finite (q : ℚ)
  | posInf
  | negInf
  | nan
deriving DecidableEq, Repr

/-- A Go dynamic value (interface) as it occurs in the program: the value
shapes produced by json.Unmarshal on a JSON document (null, bool, float64,
string, array, object) together with the int64 produced by Time.Unix.
Objects are association lists of entries; the list order stands for one
Go map iteration order. -/
inductive GoVal where
  | null
  | bool (b : Bool)
  | num (f : GoFloat)
  | int (n : Int)
  | str (s : String)
  | arr (elems : List GoVal)
  | obj (entries : List (String × GoVal))
deriving Repr

/-- Character class of Go's unicode.IsSpace: the whitespace characters
recognised by strings.TrimSpace. -/
def goIsSpace (c : Char) : Bool :=
  c = ' ' || ('\u0009' ≤ c && c ≤ '\u000D') || c = '\u0085' || c = '\u00A0' ||
  c = '\u1680' || ('\u2000' ≤ c && c ≤ '\u200A') || c = '\u2028' ||
  c = '\u2029' || c = '\u202F' || c = '\u205F' || c = '\u3000'

/-- Trim goIsSpace characters from both ends of a character list. -/
def goTrimChars (l : List Char) : List Char :=
  ((l.dropWhile goIsSpace).reverse.dropWhile goIsSpace).reverse

/-- Models strings.TrimSpace: remove leading and trailing Unicode
whitespace. -/
def goTrimSpace (s : String) : String :=
  String.mk (goTrimChars s.data)

/-- sanitizeKey from main.go: trims leading and trailing whitespace from a
key via strings.TrimSpace. -/
def sanitizeKey (key : String) : String :=
  goTrimSpace key

/-- Numeric value of a decimal digit character, if it is one. -/
def digitVal (c : Char) : Option Nat :=
  if c.isDigit then some (c.toNat - 48) else none

/-- Parse a fixed pair of decimal digit characters as a two-digit number. -/
def twoDigits (a b : Char) : Option Nat := do
  let x ← digitVal a
  let y ← digitVal b
  pure (10 * x + y)

/-- Gregorian leap-year rule, as in Go's time package (isLeap). -/
def isLeapYear (y : Nat) : Bool :=
  y % 4 = 0 && (y % 100 ≠ 0 || y % 400 = 0)

/-- Number of days in a month of a given year (Go time.daysIn). -/
def daysInMonth (m y : Nat) : Nat :=
  if m = 2 then (if isLeapYear y then 29 else 28)
  else if m = 4 || m = 6 || m = 9 || m = 11 then 30
  else 31

/-- Days from the Unix epoch 1970-01-01 to the proleptic Gregorian date
(y, m, d), via the Julian day number. -/
def daysFromCivil (y m d : Nat) : Int :=
  let a : Nat := (14 - m) / 12
  let y1 : Nat := y + 4800 - a
  let m1 : Nat := m + 12 * a - 3
  let jdn : Nat := d + (153 * m1 + 2) / 5 + 365 * y1 + y1 / 4 - y1 / 100 + y1 / 400
  (jdn : Int) - 32045 - 2440588

/-- Skip a fractional-second field as Go's parsers do: a period or a comma
followed by at least one digit consumes the separator and every following
digit; anything else is left in place.  (The generic layout parser behind
time.Parse accepts a comma as well as a period, see go.dev/issue/54580;
the digits feed only the nanosecond field, which Time.Unix discards.) -/
def skipFrac (cs : List Char) : List Char :=
  match cs with
  | sep :: c :: rest =>
      if (sep = '.' || sep = ',') && c.isDigit then rest.dropWhile Char.isDigit
      else sep :: c :: rest
  | _ => cs

/-- Parse the zone suffix as Go's generic layout parser does for the
Z07:00 element: either the single letter Z (offset 0), or a sign, two
hour digits, a colon and two minute digits, with NO range check on either
number (offsets such as +24:00 or +00:60 are accepted,
go.dev/issue/54580); returns the offset east of UTC in seconds. -/
def parseZone (cs : List Char) : Option Int :=
  match cs with
  | ['Z'] => some 0
  | [sgn, a, b, colon, c, d] =>
      if (sgn = '+' || sgn = '-') && colon = ':' then do
        let hr ← twoDigits a b
        let mm ← twoDigits c d
        let off : Int := ((hr * 3600 + mm * 60 : Nat) : Int)
        pure (if sgn = '-' then -off else off)
      else none
  | _ => none

/-- Go's getnum with fixed=false, used by the generic layout parser for
the hour field: one digit, or two when a second digit follows (so a
single-digit hour is accepted, go.dev/issue/54580). -/
def parseHour : List Char → Option (Nat × List Char)
  | [] => none
  | c1 :: rest =>
      match digitVal c1 with
      | none => none
      | some v1 =>
          match rest with
          | c2 :: rest2 =>
              match digitVal c2 with
              | none => some (v1, rest)
              | some v2 => some (10 * v1 + v2, rest2)
          | [] => some (v1, [])

/-- Require the given character next and consume it (a layout literal of
Go's generic parser). -/
def expectChar (c : Char) : List Char → Option (List Char)
  | x :: rest => if x = c then some rest else none
  | [] => none

/-- Models Go time.Parse with the time.RFC3339 layout, composed with
Time.Unix.  time.Parse first tries the strict RFC3339 fast path and falls
back to the generic layout parser; since every string the fast path
accepts the generic parser also accepts (with the same result), the
accepted language is the generic parser's: four year digits, literal
separators (uppercase T, colons), two-digit month and day (day checked
against the month's length), a one- or two-digit hour at most 23,
two-digit minutes and seconds at most 59, an optional fractional second
introduced by a period or a comma, and a zone that is Z or a signed
hh:mm offset whose digits are not range-checked (go.dev/issue/54580
documents these generous acceptances).  Returns the Unix epoch seconds;
Time.Unix drops any fractional second. -/
def parseRFC3339 (s : String) : Option Int :=
  match s.data with
  | y1 :: y2 :: y3 :: y4 :: sep1 :: mo1 :: mo2 :: sep2 :: d1 :: d2 :: sepT ::
    restT =>
      if sep1 = '-' && sep2 = '-' && sepT = 'T' then do
        let yh ← twoDigits y1 y2
        let yl ← twoDigits y3 y4
        let year := 100 * yh + yl
        let month ← twoDigits mo1 mo2
        let day ← twoDigits d1 d2
        let (hour, rest1) ← parseHour restT
        let rest2 ← expectChar ':' rest1
        match rest2 with
        | mi1 :: mi2 :: sep4 :: se1 :: se2 :: rest =>
            if sep4 = ':' then do
              let minute ← twoDigits mi1 mi2
              let second ← twoDigits se1 se2
              if 1 ≤ month && month ≤ 12 && 1 ≤ day && day ≤ daysInMonth month year &&
                 hour ≤ 23 && minute ≤ 59 && second ≤ 59 then do
                let off ← parseZone (skipFrac rest)
                pure (daysFromCivil year month day * 86400 +
                      ((hour * 3600 + minute * 60 + second : Nat) : Int) - off)
              else none
            else none
        | _ => none
      else none
  | _ => none

/-- FormatString from main.go: asserts the payload is a string (a failed
assertion is a panic, modelled as none); an RFC3339 timestamp becomes its
Unix epoch seconds (an int64), any other string is returned unchanged. -/
def FormatString (v : GoVal) : Option GoVal :=
  match v with
  | .str strVal =>
      match parseRFC3339 strVal with
      | some t => some (.int t)
      | none => some (.str strVal)
  | _ => none

/-- Lower-case an ASCII letter, leaving other characters unchanged. -/
def lowerChar (c : Char) : Char :=
  if 'A' ≤ c && c ≤ 'Z' then Char.ofNat (c.toNat + 32) else c

/-- Whether the character is a hexadecimal digit letter (a-f, A-F). -/
def isHexLetter (c : Char) : Bool :=
  'a' ≤ lowerChar c && lowerChar c ≤ 'f'

/-- Numeric value of a decimal or hexadecimal digit character. -/
def hexVal (c : Char) : Nat :=
  if c.isDigit then c.toNat - 48 else (lowerChar c).toNat - 87

/-- Split an optional leading sign off a character list, returning whether
the sign was a minus. -/
def splitSign : List Char → Bool × List Char
  | '+' :: rest => (false, rest)
  | '-' :: rest => (true, rest)
  | cs => (false, cs)

/-- State machine of Go strconv.underscoreOK: the state character records
what was last seen (caret for start, 0 for a digit or base prefix, an
underscore, or an exclamation mark for anything else); an underscore is
legal only between digits. -/
def underscoreOKAux (hexBase : Bool) : Char → List Char → Bool
  | saw, [] => saw ≠ '_'
  | saw, c :: rest =>
      if c.isDigit || (hexBase && isHexLetter c) then
        underscoreOKAux hexBase '0' rest
      else if c = '_' then
        (saw = '0') && underscoreOKAux hexBase '_' rest
      else
        (saw ≠ '_') && underscoreOKAux hexBase '!' rest

/-- Models Go strconv.underscoreOK: underscores in a numeric literal must
appear only between digits or between a base prefix and a digit. -/
def underscoreOK (cs : List Char) : Bool :=
  let cs1 := (splitSign cs).2
  match cs1 with
  | '0' :: x :: rest =>
      if lowerChar x = 'b' || lowerChar x = 'o' || lowerChar x = 'x' then
        underscoreOKAux (lowerChar x = 'x') '0' rest
      else underscoreOKAux false '^' cs1
  | _ => underscoreOKAux false '^' cs1

/-- Models Go strconv's special-value recognition in ParseFloat: the whole
string (case-insensitively) is inf or infinity with an optional sign, or
nan without a sign. -/
def parseSpecial (cs : List Char) : Option GoFloat :=
  let l := cs.map lowerChar
  if l = "nan".data then some .nan
  else if l = "inf".data || l = "infinity".data ||
          l = "+inf".data || l = "+infinity".data then some .posInf
  else if l = "-inf".data || l = "-infinity".data then some .negInf
  else none

/-- Characters that may appear in the mantissa scan of Go strconv's
readFloat: digits, underscores, a period, and for hex literals the
hexadecimal letters. -/
def isMantChar (hexBase : Bool) (c : Char) : Bool :=
  c.isDigit || c = '_' || c = '.' || (hexBase && isHexLetter c)

/-- Value of a digit string in the given base. -/
def digitsVal (base : Nat) (ds : List Char) : Nat :=
  ds.foldl (fun acc c => base * acc + hexVal c) 0

/-- Split mantissa digits at the optional period; a second period makes the
literal invalid. -/
def splitMantissa (mant : List Char) : Option (List Char × List Char) :=
  let intPart := mant.takeWhile (fun c => c ≠ '.')
  match mant.dropWhile (fun c => c ≠ '.') with
  | [] => some (intPart, [])
  | _ :: fr => if fr.contains '.' then none else some (intPart, fr)

/-- Parse the exponent field after the e or p marker: an optional sign and
at least one digit, running to the end of the string (underscores are
tolerated here; underscoreOK validates them separately). -/
def parseExponent (cs : List Char) : Option Int :=
  let (eneg, cs1) := splitSign cs
  let ds := cs1.takeWhile (fun c => c.isDigit || c = '_')
  let rest := cs1.dropWhile (fun c => c.isDigit || c = '_')
  let digits := ds.filter Char.isDigit
  if rest = [] ∧ digits ≠ [] then
    let e : Int := (digitsVal 10 digits : Int)
    some (if eneg then -e else e)
  else none

/-- Magnitude at which IEEE 754 binary64 round-half-even rounding yields
infinity: the midpoint between the largest finite double and 2 ^ 1024,
written out as a numeral (the theorem overflowBoundary64_eq certifies it
equals 2 ^ 1024 - 2 ^ 970).  strconv.ParseFloat returns ErrRange (a
non-nil error) exactly when the parsed value's magnitude reaches this
boundary. -/
def overflowBoundary64 : ℚ :=
  ((179769313486231580793728971405303415079934132710037826936173778980444968292764750946649017977587207096330286416692887910946555547851940402630657488671505820681908902000708383676273854845817711531764475730270069855571366959622842914819860834936475292719074168444365510704342711559699508093042880177904174497792 : ℕ) : ℚ)

/-- Package a parsed magnitude as ParseFloat does: a magnitude that
rounds to infinity carries ErrRange, a non-nil error, modelled as none
(the program's err == nil check then fails); an in-range magnitude is
kept exactly, signed. -/
def finiteOrRange (neg : Bool) (q : ℚ) : Option GoFloat :=
  if overflowBoundary64 ≤ q then none
  else some (.finite (if neg then -q else q))

/-- The numeric (non-special) grammar of Go strconv.ParseFloat: optional
sign, a decimal mantissa with at most one period and at least one digit
followed by an optional e-exponent, or a 0x-prefixed hexadecimal mantissa
with a mandatory p-exponent; the whole string must be consumed.  The value
is kept exactly as a rational unless its magnitude reaches the binary64
overflow boundary, where ParseFloat's ErrRange error applies. -/
def parseNumeric (cs : List Char) : Option GoFloat :=
  let (neg, cs1) := splitSign cs
  let hexBase : Bool := match cs1 with
    | '0' :: x :: _ => lowerChar x == 'x'
    | _ => false
  let cs2 := if hexBase then cs1.drop 2 else cs1
  let mant := cs2.takeWhile (isMantChar hexBase)
  let rest := cs2.dropWhile (isMantChar hexBase)
  let mantClean := mant.filter (fun c => c ≠ '_')
  match splitMantissa mantClean with
  | none => none
  | some (ip, fp) =>
      if ip ++ fp = [] then none
      else
        let base : ℕ := if hexBase then 16 else 10
        let mantQ : ℚ := (digitsVal base (ip ++ fp) : ℚ) /
                          ((base ^ fp.length : ℕ) : ℚ)
        match rest with
        | [] => if hexBase then none else finiteOrRange neg mantQ
        | e :: rest2 =>
            if lowerChar e = (if hexBase then 'p' else 'e') then
              match parseExponent rest2 with
              | none => none
              | some ex =>
                  let sbase : ℕ := if hexBase then 2 else 10
                  let scale : ℚ :=
                    if 0 ≤ ex then ((sbase ^ ex.toNat : ℕ) : ℚ)
                    else 1 / ((sbase ^ (-ex).toNat : ℕ) : ℚ)
                  finiteOrRange neg (mantQ * scale)
            else none

/-- Models the outcomes of strconv.ParseFloat(s, 64) that the program can
observe through its err == nil check: the special inf and nan strings
succeed with a nil error, the numeric grammar is guarded by the
underscore rule, a syntax error or the ErrRange overflow error yields
none, and an in-range finite value is kept as an exact rational
(abstracting only IEEE 754 rounding of representable-range values). -/
def parseGoFloat (s : String) : Option GoFloat :=
  match parseSpecial s.data with
  | some f => some f
  | none => if underscoreOK s.data then parseNumeric s.data else none

/-- FormatNum from main.go: asserts the payload is a string (a failed
assertion is a panic, modelled as none); the string is parsed as a 64-bit
float, substituting 0.0 on parse failure; the result is always
float-typed. -/
def FormatNum (v : GoVal) : Option GoVal :=
  match v with
  | .str numStr =>
      match parseGoFloat numStr with
      | some f => some (.num f)
      | none => some (.num (.finite 0))
  | _ => none

/-- FormatBool from main.go: asserts the payload is a string (a failed
assertion is a panic, modelled as none); returns true for the exact
strings 1, t and true, and false for every other string. -/
def FormatBool (v : GoVal) : Option GoVal :=
  match v with
  | .str boolStr =>
      if boolStr = "1" || boolStr = "t" || boolStr = "true" then
        some (.bool true)
      else some (.bool false)
  | _ => none

/-- FormatNull from main.go: always returns nil regardless of the
payload (no type assertion, so it never panics). -/
def FormatNull (_ : GoVal) : Option GoVal :=
  some .null

/-- Whether a sanitized inner key has an entry in the TransformRules
table of main.go. -/
def hasRule (k : String) : Bool :=
  k = "S" || k = "N" || k = "BOOL" || k = "NULL" || k = "M" || k = "L"

/-- Go map assignment on an association list: overwrite the binding if the
key is present, otherwise append it. -/
def insertA (k : String) (v : GoVal) : List (String × GoVal) → List (String × GoVal)
  | [] => [(k, v)]
  | (k', v') :: rest =>
      if k' = k then (k, v) :: rest else (k', v') :: insertA k v rest

/-- The merge loop of TransformJSON: copy every entry of the second map
into the first, one Go map assignment at a time. -/
def mergeA (output adds : List (String × GoVal)) : List (String × GoVal) :=
  adds.foldl (fun acc kv => insertA kv.1 kv.2 acc) output

mutual

/-- TransformJSON from main.go: walks the entries of the input object,
sanitizing each outer key, skipping empty sanitized keys and non-object
values, applying the rule of every recognized sanitized inner tag key to
its payload (keyed by the outer key in a scratch map), and merging the
scratch map into the output when it is nonempty.  A panic anywhere below
(a failed type assertion in a rule) is modelled as none. -/
def TransformJSON (inputMap : List (String × GoVal)) :
    Option (List (String × GoVal)) :=
  transformLoop inputMap []
termination_by (sizeOf inputMap, 1)

/-- The entry loop of TransformJSON over the remaining input entries,
carrying the output map built so far. -/
def transformLoop :
    List (String × GoVal) → List (String × GoVal) →
    Option (List (String × GoVal))
  | [], output => some output
  | (key, value) :: rest, output =>
      let key' := sanitizeKey key
      if key' = "" then transformLoop rest output
      else
        match value with
        | .obj val => do
            let outMap ← innerLoop key' val []
            transformLoop rest (if 0 < outMap.length then mergeA output outMap else output)
        | _ => transformLoop rest output
termination_by entries _ => (sizeOf entries, 0)

/-- The inner loop of TransformJSON over a nested object's entries: for
each entry whose sanitized key has a transformation rule, apply the rule
to the value and store the result in the scratch map under the (already
sanitized) outer key. -/
def innerLoop (key : String) :
    List (String × GoVal) → List (String × GoVal) →
    Option (List (String × GoVal))
  | [], outMap => some outMap
  | (k, v) :: rest, outMap =>
      let k' := sanitizeKey k
      if hasRule k' then do
        let r ← applyRule k' v
        innerLoop key rest (insertA key r outMap)
      else innerLoop key rest outMap
termination_by entries _ => (sizeOf entries, 0)

/-- Dispatch through the TransformRules table of main.go. -/
def applyRule (tag : String) (v : GoVal) : Option GoVal :=
  if tag = "S" then FormatString v
  else if tag = "N" then FormatNum v
  else if tag = "BOOL" then FormatBool v
  else if tag = "NULL" then FormatNull v
  else if tag = "M" then FormatMap v
  else if tag = "L" then FormatList v
  else none
termination_by (sizeOf v, 3)

/-- FormatMap from main.go: asserts the payload is an object (a failed
assertion is a panic, modelled as none) and transforms it recursively. -/
def FormatMap (v : GoVal) : Option GoVal :=
  match v with
  | .obj submap => do
      let t ← TransformJSON submap
      pure (.obj t)
  | _ => none
termination_by (sizeOf v, 2)

/-- FormatList from main.go: asserts the payload is an array (a failed
assertion is a panic, modelled as none); transforms each object element
recursively and drops every non-object element. -/
def FormatList (v : GoVal) : Option GoVal :=
  match v with
  | .arr listValue => do
      let l ← listLoop listValue
      pure (.arr l)
  | _ => none
termination_by (sizeOf v, 2)

/-- The element loop of FormatList: object elements are transformed and
appended, other elements are skipped. -/
def listLoop : List GoVal → Option (List GoVal)
  | [] => some []
  | listItem :: rest =>
      match listItem with
      | .obj val => do
          let t ← TransformJSON val
          let r ← listLoop rest
          pure (.obj t :: r)
      | _ => listLoop rest
termination_by l => (sizeOf l, 0)

end

/-- Whether a character list occurs contiguously inside another. -/
def listHasInfix (sub : List Char) : List Char → Bool
  | [] => sub.isEmpty
  | c :: rest => sub.isPrefixOf (c :: rest) || listHasInfix sub rest

/-- Models strings.Contains: substring test (the pattern used by the
program is ASCII, so the byte-level and character-level tests agree). -/
def goStringsContains (s sub : String) : Bool :=
  listHasInfix sub.data s.data

/-- The error cases of ParseSchema from main.go, kept distinct: the
filename check, a file-read failure, and a JSON unmarshal failure. -/
inductive SchemaError where
  | notJsonName
  | readFailure
  | unmarshalFailure
deriving DecidableEq, Repr

/-- ParseSchema from main.go, parameterised over the file system (a map
from file name to contents, none meaning the read fails) and the JSON
unmarshaller (none meaning the bytes are not a JSON object): reject the
name unless it contains .json as a substring, then read, then
unmarshal. -/
def ParseSchema (readFile : String → Option String)
    (unmarshal : String → Option (List (String × GoVal)))
    (fileName : String) : Except SchemaError (List (String × GoVal)) :=
  if !goStringsContains fileName ".json" then .error .notJsonName
  else
    match readFile fileName with
    | none => .error .readFailure
    | some fileBytes =>
        match unmarshal fileBytes with
        | none => .error .unmarshalFailure
        | some output => .ok output

/-- Whether the value is a Go string. -/
def GoVal.isStr : GoVal → Bool
  | .str _ => true
  | _ => false

/-- The drop condition of claim C2 for one input entry: the sanitized
outer key is empty, the value is not an object, or the inner object has no
entry whose sanitized key is a recognized tag. -/
def entryDropped (k : String) (v : GoVal) : Bool :=
  sanitizeKey k = "" ||
  (match v with
   | .obj inner => !(inner.any (fun kv => hasRule (sanitizeKey kv.1)))
   | _ => true)

mutual

/-- An input object is well shaped when every payload that TransformJSON
will hand to a rule has the shape the rule's type assertion expects, so no
assertion panics: entries skipped by the dispatcher (empty sanitized key,
non-object value, unrecognized tag) are unconstrained. -/
def WellShapedMap : List (String × GoVal) → Bool
  | [] => true
  | (key, value) :: rest =>
      (if sanitizeKey key = "" then true
       else match value with
            | .obj val => WellShapedInner val
            | _ => true) && WellShapedMap rest
termination_by entries => (sizeOf entries, 2)

/-- Every recognized tag entry of a nested object carries a payload of the
expected shape. -/
def WellShapedInner : List (String × GoVal) → Bool
  | [] => true
  | (k, v) :: rest => WellShapedPayload (sanitizeKey k) v && WellShapedInner rest
termination_by entries => (sizeOf entries, 1)

/-- Shape expected by the rule of a given sanitized tag key: a string for
the S, N and BOOL tags, anything for NULL, a well-shaped object for M, an
array of well-shaped elements for L; unrecognized tags are
unconstrained. -/
def WellShapedPayload (tag : String) (v : GoVal) : Bool :=
  if tag = "S" || tag = "N" || tag = "BOOL" then v.isStr
  else if tag = "NULL" then true
  else if tag = "M" then
    match v with
    | .obj m => WellShapedMap m
    | _ => false
  else if tag = "L" then
    match v with
    | .arr l => WellShapedList l
    | _ => false
  else true
termination_by (sizeOf v, 3)

/-- Object elements of an L payload are well shaped; other elements are
dropped without any type assertion, so they are unconstrained. -/
def WellShapedList : List GoVal → Bool
  | [] => true
  | .obj m :: rest => WellShapedMap m && WellShapedList rest
  | _ :: rest => WellShapedList rest
termination_by l => (sizeOf l, 0)

end

/-- A clean output key: nonempty, with neither a leading nor a trailing
whitespace character. -/
def cleanKey (k : String) : Bool :=
  !k.data.isEmpty &&
  !(goIsSpace (k.data.headD 'x')) && !(goIsSpace (k.data.getLastD 'x'))

mutual

/-- Every object key occurring anywhere inside the value is clean. -/
def CleanVal : GoVal → Bool
  | .obj m => CleanMap m
  | .arr l => CleanList l
  | _ => true
termination_by v => (sizeOf v, 1)

/-- Every key of the object is clean, and so is every key nested inside
its values. -/
def CleanMap : List (String × GoVal) → Bool
  | [] => true
  | (k, v) :: rest => cleanKey k && CleanVal v && CleanMap rest
termination_by entries => (sizeOf entries, 0)

/-- Every key nested inside any element is clean. -/
def CleanList : List GoVal → Bool
  | [] => true
  | v :: rest => CleanVal v && CleanList rest
termination_by l => (sizeOf l, 0)

end

/-! ## Theorems -/

theorem dropWhile_head_not (p : Char → Bool) :
    ∀ (l : List Char) (c : Char), (l.dropWhile p).head? = some c → p c = false := by
  intro l
  induction l with
  | nil => intro c h; simp [List.dropWhile] at h
  | cons a t ih =>
      intro c h
      by_cases hp : p a
      · rw [List.dropWhile_cons, if_pos hp] at h
        exact ih c h
      · rw [List.dropWhile_cons, if_neg hp] at h
        simp at h
        subst h
        simpa using hp

theorem dropWhile_getLast (p : Char → Bool) :
    ∀ l : List Char, l.dropWhile p ≠ [] → (l.dropWhile p).getLast? = l.getLast? := by
  intro l
  induction l with
  | nil => intro h; simp [List.dropWhile] at h
  | cons a t ih =>
      intro h
      by_cases hp : p a
      · rw [List.dropWhile_cons, if_pos hp] at h ⊢
        rw [ih h]
        have ht : t ≠ [] := by
          intro he; rw [he] at h; simp [List.dropWhile] at h
        match t, ht with
        | b :: t', _ => rw [List.getLast?_cons_cons]
      · rw [List.dropWhile_cons, if_neg hp]

theorem goTrimChars_clean (l : List Char) (h : goTrimChars l ≠ []) :
    ∃ a b, (goTrimChars l).head? = some a ∧ goIsSpace a = false ∧
      (goTrimChars l).getLast? = some b ∧ goIsSpace b = false := by
  have hu_ne : (l.dropWhile goIsSpace).reverse.dropWhile goIsSpace ≠ [] := by
    intro he
    apply h
    unfold goTrimChars
    rw [he]
    rfl
  obtain ⟨a, ha⟩ := Option.isSome_iff_exists.1 (List.getLast?_isSome.2 hu_ne)
  obtain ⟨b, hb⟩ := Option.isSome_iff_exists.1 (List.head?_isSome.2 hu_ne)
  refine ⟨a, b, ?_, ?_, ?_, ?_⟩
  · show ((l.dropWhile goIsSpace).reverse.dropWhile goIsSpace).reverse.head? = some a
    rw [List.head?_reverse]
    exact ha
  · have h1 := dropWhile_getLast goIsSpace (l.dropWhile goIsSpace).reverse hu_ne
    rw [h1, List.getLast?_reverse] at ha
    exact dropWhile_head_not goIsSpace l a ha
  · show ((l.dropWhile goIsSpace).reverse.dropWhile goIsSpace).reverse.getLast? = some b
    rw [List.getLast?_reverse]
    exact hb
  · exact dropWhile_head_not goIsSpace ((l.dropWhile goIsSpace).reverse) b hb

theorem string_mk_ne_empty (l : List Char) (h : String.mk l ≠ "") : l ≠ [] := by
  intro he
  exact h (by rw [he])

theorem cleanKey_sanitizeKey (k : String) (h : sanitizeKey k ≠ "") :
    cleanKey (sanitizeKey k) = true := by
  unfold sanitizeKey goTrimSpace at h ⊢
  have hne : goTrimChars k.data ≠ [] := string_mk_ne_empty _ h
  obtain ⟨a, b, ha, hsa, hb, hsb⟩ := goTrimChars_clean k.data hne
  unfold cleanKey
  simp only [String.data]
  rw [List.headD_eq_head?_getD, List.getLastD_eq_getLast?, ha, hb]
  simp [hne, hsa, hsb]

set_option maxRecDepth 8000 in
/-- The overflow boundary numeral equals the midpoint 2 ^ 1024 - 2 ^ 970
between the largest finite binary64 value and 2 ^ 1024. -/
theorem overflowBoundary64_eq :
    overflowBoundary64 = ((2 ^ 1024 - 2 ^ 970 : ℕ) : ℚ) := by
  unfold overflowBoundary64
  exact congrArg (fun n : ℕ => (n : ℚ)) (by rfl)

/-- Claim C4: FormatNum returns the parsed 64-bit float for every string
the float parser accepts, returns 0.0 for every string it rejects, and in
every case the result is float-typed. -/
theorem c4_format_num_parse (s : String) :
    (∀ f : GoFloat, parseGoFloat s = some f → FormatNum (.str s) = some (.num f)) ∧
    (parseGoFloat s = none → FormatNum (.str s) = some (.num (.finite 0))) ∧
    (∃ f : GoFloat, FormatNum (.str s) = some (.num f)) := by
  refine ⟨?_, ?_, ?_⟩
  · intro f h
    simp [FormatNum, h]
  · intro h
    simp [FormatNum, h]
  · match hp : parseGoFloat s with
    | some f => exact ⟨f, by simp [FormatNum, hp]⟩
    | none => exact ⟨.finite 0, by simp [FormatNum, hp]⟩

theorem c4_witness :
    FormatNum (.str "3") = some (.num (.finite 3)) ∧
    FormatNum (.str "abc") = some (.num (.finite 0)) ∧
    FormatNum (.str "20000000000000000000000000000000000000000000000000000e256") =
      some (.num (.finite 0)) :=
  ⟨(c4_format_num_parse "3").1 (.finite 3) (by
      simp +decide [parseGoFloat, parseSpecial, parseNumeric, finiteOrRange,
        overflowBoundary64, underscoreOK, underscoreOKAux, splitSign, splitMantissa,
        parseExponent, isMantChar, digitsVal, hexVal, lowerChar, isHexLetter]),
   (c4_format_num_parse "abc").2.1 (by decide),
   (c4_format_num_parse "20000000000000000000000000000000000000000000000000000e256").2.1 (by
      simp +decide [parseGoFloat, parseSpecial, parseNumeric, finiteOrRange,
        overflowBoundary64, underscoreOK, underscoreOKAux, splitSign, splitMantissa,
        parseExponent, isMantChar, digitsVal, hexVal, lowerChar, isHexLetter]
      norm_num)⟩

/-- Claim C5: FormatBool returns true exactly for the strings 1, t and
true, and false for every other string, in particular for the empty
string, 0, True and TRUE. -/
theorem c5_format_bool_exact (s : String) :
    (FormatBool (.str s) = some (.bool true) ↔ (s = "1" ∨ s = "t" ∨ s = "true")) ∧
    (¬(s = "1" ∨ s = "t" ∨ s = "true") → FormatBool (.str s) = some (.bool false)) ∧
    (FormatBool (.str "") = some (.bool false) ∧
     FormatBool (.str "0") = some (.bool false) ∧
     FormatBool (.str "True") = some (.bool false) ∧
     FormatBool (.str "TRUE") = some (.bool false)) := by
  have key : FormatBool (.str s) =
      some (.bool (decide (s = "1") || decide (s = "t") || decide (s = "true"))) := by
    simp only [FormatBool]
    split <;> simp_all
  refine ⟨?_, ?_, by simp +decide [FormatBool], by simp +decide [FormatBool],
      by simp +decide [FormatBool], by simp +decide [FormatBool]⟩
  · rw [key]
    constructor
    · intro h
      simp only [Option.some.injEq, GoVal.bool.injEq] at h
      simpa [or_assoc] using h.symm
    · intro h
      rcases h with h | h | h <;> simp [h]
  · intro h
    rw [key]
    push_neg at h
    simp [h.1, h.2.1, h.2.2]

theorem c5_witness :
    FormatBool (.str "t") = some (.bool true) :=
  (c5_format_bool_exact "t").1.2 (Or.inr (Or.inl rfl))

/-- Claim C7: ParseSchema returns its filename error exactly when the name
does not contain .json as a substring, independently of the file system
(so the check precedes any read); schema.txt is rejected for every file
system, while my.jsonfile passes the name check although .json is not a
suffix of it. -/
theorem c7_parse_schema_name_check :
    (∀ (readFile : String → Option String)
       (unmarshal : String → Option (List (String × GoVal))) (fileName : String),
        ParseSchema readFile unmarshal fileName = .error .notJsonName ↔
          goStringsContains fileName ".json" = false) ∧
    (∀ readFile unmarshal,
        ParseSchema readFile unmarshal "schema.txt" = .error .notJsonName) ∧
    (goStringsContains "my.jsonfile" ".json" = true ∧
     List.isSuffixOf ".json".data "my.jsonfile".data = false ∧
     ∀ readFile unmarshal,
        ParseSchema readFile unmarshal "my.jsonfile" ≠ .error .notJsonName) := by
  have main : ∀ (readFile : String → Option String)
      (unmarshal : String → Option (List (String × GoVal))) (fileName : String),
      ParseSchema readFile unmarshal fileName = .error .notJsonName ↔
        goStringsContains fileName ".json" = false := by
    intro readFile unmarshal fileName
    constructor
    · intro h
      by_contra hc
      have hc' : goStringsContains fileName ".json" = true := by
        revert hc; cases goStringsContains fileName ".json" <;> simp
      unfold ParseSchema at h
      rw [hc'] at h
      simp only [Bool.not_true, Bool.false_eq_true, if_false] at h
      split at h <;> [skip; split at h] <;> simp_all
    · intro h
      unfold ParseSchema
      rw [h]
      simp
  refine ⟨main, ?_, by decide, by decide, ?_⟩
  · intro readFile unmarshal
    exact (main readFile unmarshal "schema.txt").2 (by decide)
  · intro readFile unmarshal
    intro h
    have := (main readFile unmarshal "my.jsonfile").1 h
    simp +decide at this

theorem c7_witness :
    ParseSchema (fun _ => none) (fun _ => none) "schema.txt" = .error .notJsonName :=
  c7_parse_schema_name_check.2.1 (fun _ => none) (fun _ => none)

theorem dropWhile_digits_append (ds : List Char) (h : ∀ c ∈ ds, c.isDigit = true) :
    (ds ++ ['Z']).dropWhile Char.isDigit = ['Z'] := by
  induction ds with
  | nil => decide
  | cons c t ih =>
      rw [List.cons_append, List.dropWhile_cons, if_pos (h c (by simp))]
      exact ih (fun x hx => h x (by simp [hx]))

/-- Claim C10: an RFC3339 timestamp with a fractional second maps to the
whole Unix epoch seconds only, the fractional digits being parsed but
discarded, as on 2021-01-01T00:00:00.(digits)Z. -/
theorem c10_fractional_seconds_truncated (d : Char) (ds : List Char)
    (hd : d.isDigit = true) (hds : ∀ c ∈ ds, c.isDigit = true) :
    FormatString (.str (String.mk
      (['2', '0', '2', '1', '-', '0', '1', '-', '0', '1', 'T',
        '0', '0', ':', '0', '0', ':', '0', '0', '.'] ++ d :: (ds ++ ['Z'])))) =
      some (.int 1609459200) := by
  have h1 : skipFrac ('.' :: d :: (ds ++ ['Z'])) = ['Z'] := by
    simp [skipFrac, hd, dropWhile_digits_append ds hds]
  simp +decide [FormatString, parseRFC3339, parseHour, expectChar, h1, twoDigits,
    digitVal, parseZone, daysInMonth, isLeapYear, daysFromCivil]

theorem transformLoop_nil (output : List (String × GoVal)) :
    transformLoop [] output = some output := by
  rw [transformLoop.eq_def]

theorem transformLoop_cons_empty (k : String) (v : GoVal)
    (t output : List (String × GoVal)) (hk : sanitizeKey k = "") :
    transformLoop ((k, v) :: t) output = transformLoop t output := by
  rw [transformLoop.eq_def]
  simp [hk]

theorem transformLoop_cons_obj (k : String) (inner t output : List (String × GoVal))
    (hk : sanitizeKey k ≠ "") :
    transformLoop ((k, .obj inner) :: t) output =
      (innerLoop (sanitizeKey k) inner []).bind (fun outMap =>
        transformLoop t (if 0 < outMap.length then mergeA output outMap else output)) := by
  rw [transformLoop.eq_def]
  simp only [hk, if_false]
  rfl

theorem transformLoop_cons_other (k : String) (v : GoVal)
    (t output : List (String × GoVal)) (hk : sanitizeKey k ≠ "")
    (hv : ∀ inner, v ≠ .obj inner) :
    transformLoop ((k, v) :: t) output = transformLoop t output := by
  rw [transformLoop.eq_def]
  cases v with
  | obj inner => exact absurd rfl (hv inner)
  | null => simp [hk]
  | bool b => simp [hk]
  | num f => simp [hk]
  | int n => simp [hk]
  | str s => simp [hk]
  | arr elems => simp [hk]

theorem insertA_ne_nil (k : String) (v : GoVal) (l : List (String × GoVal)) :
    insertA k v l ≠ [] := by
  cases l with
  | nil => simp [insertA]
  | cons a rest =>
      obtain ⟨k', v'⟩ := a
      by_cases hk : k' = k <;> simp [insertA, hk]

theorem foldl_insertA_ne_nil (l : List (String × GoVal)) :
    ∀ acc : List (String × GoVal), acc ≠ [] →
      l.foldl (fun acc kv => insertA kv.1 kv.2 acc) acc ≠ [] := by
  induction l with
  | nil => intro acc h; simpa using h
  | cons a t ih =>
      intro acc _
      rw [List.foldl_cons]
      exact ih _ (insertA_ne_nil _ _ _)

theorem mergeA_ne_nil (output adds : List (String × GoVal)) (h : adds ≠ []) :
    mergeA output adds ≠ [] := by
  match adds, h with
  | a :: t, _ =>
      unfold mergeA
      rw [List.foldl_cons]
      exact foldl_insertA_ne_nil t _ (insertA_ne_nil _ _ _)

theorem innerLoop_no_rule (key : String) :
    ∀ entries outMap : List (String × GoVal),
      (∀ kv ∈ entries, hasRule (sanitizeKey kv.1) = false) →
      innerLoop key entries outMap = some outMap := by
  intro entries
  induction entries with
  | nil => intro outMap _; simp [innerLoop]
  | cons a t ih =>
      intro outMap h
      obtain ⟨k, v⟩ := a
      have hk : hasRule (sanitizeKey k) = false := h (k, v) (by simp)
      simp only [innerLoop, hk, Bool.false_eq_true, if_false]
      exact ih outMap (fun kv hkv => h kv (by simp [hkv]))

theorem innerLoop_some_ne_nil (key : String) :
    ∀ entries outMap out : List (String × GoVal),
      outMap ≠ [] → innerLoop key entries outMap = some out → out ≠ [] := by
  intro entries
  induction entries with
  | nil =>
      intro outMap out hne h
      simp [innerLoop] at h
      rw [← h]
      exact hne
  | cons a t ih =>
      intro outMap out hne h
      obtain ⟨k, v⟩ := a
      by_cases hk : hasRule (sanitizeKey k) = true
      · cases hr : applyRule (sanitizeKey k) v with
        | none => simp [innerLoop, hk, hr] at h
        | some r =>
            simp only [innerLoop, hk, hr, if_true, Option.some_bind] at h
            exact ih _ out (insertA_ne_nil _ _ _) h
      · have hk' : hasRule (sanitizeKey k) = false := by
          revert hk; cases hasRule (sanitizeKey k) <;> simp
        simp only [innerLoop, hk', Bool.false_eq_true, if_false] at h
        exact ih outMap out hne h

theorem innerLoop_any_rule (key : String) :
    ∀ entries outMap out : List (String × GoVal),
      entries.any (fun kv => hasRule (sanitizeKey kv.1)) = true →
      innerLoop key entries outMap = some out → out ≠ [] := by
  intro entries
  induction entries with
  | nil => intro outMap out h _; simp at h
  | cons a t ih =>
      intro outMap out hany h
      obtain ⟨k, v⟩ := a
      by_cases hk : hasRule (sanitizeKey k) = true
      · cases hr : applyRule (sanitizeKey k) v with
        | none => simp [innerLoop, hk, hr] at h
        | some r =>
            simp only [innerLoop, hk, hr, if_true, Option.some_bind] at h
            exact innerLoop_some_ne_nil key t _ out (insertA_ne_nil _ _ _) h
      · have hk' : hasRule (sanitizeKey k) = false := by
          revert hk; cases hasRule (sanitizeKey k) <;> simp
        simp only [innerLoop, hk', Bool.false_eq_true, if_false] at h
        rw [List.any_cons, hk'] at hany
        simp only [Bool.false_or] at hany
        exact ih outMap out hany h

theorem transformLoop_dropped :
    ∀ entries output : List (String × GoVal),
      (∀ kv ∈ entries, entryDropped kv.1 kv.2 = true) →
      transformLoop entries output = some output := by
  intro entries
  induction entries with
  | nil => intro output _; simp [transformLoop]
  | cons a t ih =>
      intro output h
      obtain ⟨k, v⟩ := a
      have hd := h (k, v) (by simp)
      have hrest : ∀ kv ∈ t, entryDropped kv.1 kv.2 = true :=
        fun kv hkv => h kv (by simp [hkv])
      by_cases hk : sanitizeKey k = ""
      · rw [transformLoop_cons_empty k v t output hk]
        exact ih output hrest
      · cases v with
        | obj inner =>
            simp [entryDropped, hk] at hd
            have hin : innerLoop (sanitizeKey k) inner [] = some [] :=
              innerLoop_no_rule (sanitizeKey k) inner []
                (fun kv hkv => hd kv.1 kv.2 (by simpa using hkv))
            rw [transformLoop_cons_obj k inner t output hk, hin]
            have hif : (if 0 < ([] : List (String × GoVal)).length
                then mergeA output [] else output) = output := by simp
            simp only [Option.some_bind, hif]
            exact ih output hrest
        | null =>
            rw [transformLoop_cons_other k _ t output hk (fun m he => by cases he)]
            exact ih output hrest
        | bool b =>
            rw [transformLoop_cons_other k _ t output hk (fun m he => by cases he)]
            exact ih output hrest
        | num f =>
            rw [transformLoop_cons_other k _ t output hk (fun m he => by cases he)]
            exact ih output hrest
        | int n =>
            rw [transformLoop_cons_other k _ t output hk (fun m he => by cases he)]
            exact ih output hrest
        | str s =>
            rw [transformLoop_cons_other k _ t output hk (fun m he => by cases he)]
            exact ih output hrest
        | arr elems =>
            rw [transformLoop_cons_other k _ t output hk (fun m he => by cases he)]
            exact ih output hrest

/-- Claim C2: TransformJSON drops exactly the entries whose sanitized
outer key is empty, whose value is not an object, or whose inner object
has no recognized tag key; in particular an input none of whose entries is
a tagged object transforms to the empty object. -/
theorem c2_drop_exactly :
    (∀ input : List (String × GoVal),
        (∀ kv ∈ input, entryDropped kv.1 kv.2 = true) →
        TransformJSON input = some []) ∧
    (∀ (k : String) (v : GoVal) (m : List (String × GoVal)),
        TransformJSON [(k, v)] = some m → (m = [] ↔ entryDropped k v = true)) := by
  constructor
  · intro input h
    unfold TransformJSON
    exact transformLoop_dropped input [] h
  · intro k v m h
    constructor
    · intro hm
      by_contra hnd
      have hnd' : entryDropped k v = false := by
        revert hnd; cases entryDropped k v <;> simp
      simp only [entryDropped, Bool.or_eq_false_iff, decide_eq_false_iff_not] at hnd'
      obtain ⟨hk, hmatch⟩ := hnd'
      cases v with
        | obj inner =>
            simp only [Bool.not_eq_false'] at hmatch
            unfold TransformJSON at h
            rw [transformLoop_cons_obj k inner [] [] hk] at h
            cases hi : innerLoop (sanitizeKey k) inner [] with
            | none => rw [hi] at h; simp at h
            | some outMap =>
                rw [hi] at h
                simp only [Option.some_bind] at h
                have hne : outMap ≠ [] :=
                  innerLoop_any_rule (sanitizeKey k) inner [] outMap hmatch hi
                have hlen : 0 < outMap.length := List.length_pos.2 hne
                rw [if_pos hlen, transformLoop_nil] at h
                have hmm : mergeA [] outMap = m := Option.some.inj h
                exact mergeA_ne_nil [] outMap hne (hmm.trans hm)
        | null => simp at hmatch
        | bool b => simp at hmatch
        | num f => simp at hmatch
        | int n => simp at hmatch
        | str s => simp at hmatch
        | arr elems => simp at hmatch
    · intro hd
      have h2 : TransformJSON [(k, v)] = some [] := by
        unfold TransformJSON
        refine transformLoop_dropped [(k, v)] [] ?_
        intro kv hkv
        rw [List.mem_singleton] at hkv
        rw [hkv]
        exact hd
      rw [h2] at h
      exact (Option.some.inj h).symm

theorem c2_witness :
    TransformJSON [("a", .str "plain"), ("b", .num (.finite 3))] = some [] :=
  c2_drop_exactly.1 _ (by decide)

/-- Claim C8: key sanitization trims whitespace from object keys only and
never from payload string content: the sanitized key is nonempty and has
no surrounding whitespace, and a payload string reaches the output
verbatim while only the outer key is trimmed. -/
theorem c8_sanitize_keys_only (key s : String) :
    TransformJSON [(" a ", .obj [("S", .str " val")])] = some [("a", .str " val")] ∧
    (sanitizeKey key ≠ "" → cleanKey (sanitizeKey key) = true) ∧
    (parseRFC3339 s = none → sanitizeKey key ≠ "" →
      TransformJSON [(key, .obj [("S", .str s)])] =
        some [(sanitizeKey key, .str s)]) := by
  refine ⟨?_, cleanKey_sanitizeKey key, ?_⟩
  · simp [TransformJSON, transformLoop, innerLoop, applyRule, FormatString, hasRule,
      sanitizeKey, goTrimSpace, goTrimChars, goIsSpace, insertA, mergeA, parseRFC3339,
      twoDigits, digitVal]
  · intro hp hk
    have hS : sanitizeKey "S" = "S" := by decide
    simp [TransformJSON, transformLoop, innerLoop, applyRule, FormatString, hasRule,
      hS, hp, hk, insertA, mergeA]

theorem c8_witness :
    TransformJSON [(" b ", .obj [("S", .str " x ")])] = some [("b", .str " x ")] := by
  have h1 := (c8_sanitize_keys_only " b " " x ").2.2 (by decide) (by decide)
  have h2 : sanitizeKey " b " = "b" := by decide
  rw [h2] at h1
  exact h1

/-- Claim C1 counterexample: an S tag whose payload is a number rather
than a string makes the whole transformation fail (the Go type assertion
panics), instead of the entry being omitted. -/
theorem c1_counterexample :
    TransformJSON [("a", .obj [("S", .num (.finite 1))])] = none := by
  simp [TransformJSON, transformLoop, innerLoop, applyRule, FormatString, hasRule,
    sanitizeKey, goTrimSpace, goTrimChars, goIsSpace]

/-- Claim C6 counterexample: on the spec's list example the code does not
produce the documented output: the list element is handed to the
dispatcher, which treats its M key as an outer field name whose inner key
b is unrecognized, so the element becomes the empty object. -/
theorem c6_counterexample :
    TransformJSON [("a", .obj [("L", .arr
      [.obj [("M", .obj [("b", .obj [("N", .str "3")])])],
       .str "ignored-not-object"])])] ≠
      some [("a", .arr [.obj [("b", .num (.finite 3))]])] := by
  have he : TransformJSON [("a", .obj [("L", .arr
      [.obj [("M", .obj [("b", .obj [("N", .str "3")])])],
       .str "ignored-not-object"])])] = some [("a", .arr [.obj []])] := by
    simp [TransformJSON, transformLoop, innerLoop, applyRule, FormatString, hasRule,
      sanitizeKey, goTrimSpace, goTrimChars, goIsSpace, insertA, mergeA,
      FormatNum, FormatBool, FormatNull, FormatMap, FormatList, listLoop]
  rw [he]
  simp

/-- Claim C6 amended: FormatList yields a new array holding, in order, the
dispatcher's result for every object element, with non-object elements
dropped; on the spec's example input the result is the array holding one
empty object (the dispatcher drops the element's unrecognized inner key),
with the non-object element dropped. -/
theorem c6_format_list_amended :
    (∀ l res : List GoVal, listLoop l = some res →
        res = l.filterMap (fun x => match x with
          | GoVal.obj mm => (TransformJSON mm).map GoVal.obj
          | _ => none)) ∧
    (∀ l : List GoVal, FormatList (.arr l) = (listLoop l).map .arr) ∧
    TransformJSON [("a", .obj [("L", .arr
      [.obj [("M", .obj [("b", .obj [("N", .str "3")])])],
       .str "ignored-not-object"])])] = some [("a", .arr [.obj []])] := by
  refine ⟨?_, ?_, ?_⟩
  · intro l
    induction l with
    | nil =>
        intro res h
        simp only [listLoop, Option.some.injEq] at h
        subst h
        simp
    | cons x xs ih =>
        intro res h
        cases x with
        | obj mm =>
            simp only [listLoop] at h
            cases ht : TransformJSON mm with
            | none => rw [ht] at h; simp at h
            | some t =>
                cases hr : listLoop xs with
                | none => rw [ht, hr] at h; simp at h
                | some r =>
                    rw [ht, hr] at h
                    simp at h
                    subst h
                    simp [List.filterMap_cons, ht]
                    exact ih r hr
        | null => simp only [listLoop] at h; simp [List.filterMap_cons, ih res h]
        | bool b => simp only [listLoop] at h; simp [List.filterMap_cons, ih res h]
        | num f => simp only [listLoop] at h; simp [List.filterMap_cons, ih res h]
        | int n => simp only [listLoop] at h; simp [List.filterMap_cons, ih res h]
        | str s => simp only [listLoop] at h; simp [List.filterMap_cons, ih res h]
        | arr elems => simp only [listLoop] at h; simp [List.filterMap_cons, ih res h]
  · intro l
    simp only [FormatList]
    cases hl : listLoop l <;> simp [hl]
  · simp [TransformJSON, transformLoop, innerLoop, applyRule, FormatString, hasRule,
      sanitizeKey, goTrimSpace, goTrimChars, goIsSpace, insertA, mergeA,
      FormatNum, FormatBool, FormatNull, FormatMap, FormatList, listLoop]

theorem c6_witness :
    ([] : List GoVal) = ([GoVal.str "x"].filterMap (fun x => match x with
      | GoVal.obj mm => (TransformJSON mm).map GoVal.obj
      | _ => none)) :=
  c6_format_list_amended.1 [GoVal.str "x"] [] (by simp [listLoop])

theorem transformJSON_def (m : List (String × GoVal)) :
    TransformJSON m = transformLoop m [] := by
  rw [TransformJSON.eq_def]

theorem innerLoop_nil (key : String) (outMap : List (String × GoVal)) :
    innerLoop key [] outMap = some outMap := by
  rw [innerLoop.eq_def]

theorem innerLoop_cons_rule (key k : String) (v : GoVal)
    (t outMap : List (String × GoVal)) (hk : hasRule (sanitizeKey k) = true) :
    innerLoop key ((k, v) :: t) outMap =
      (applyRule (sanitizeKey k) v).bind
        (fun r => innerLoop key t (insertA key r outMap)) := by
  rw [innerLoop.eq_def]
  simp only [hk, if_true]
  rfl

theorem innerLoop_cons_norule (key k : String) (v : GoVal)
    (t outMap : List (String × GoVal)) (hk : hasRule (sanitizeKey k) = false) :
    innerLoop key ((k, v) :: t) outMap = innerLoop key t outMap := by
  rw [innerLoop.eq_def]
  simp [hk]

theorem listLoop_nil : listLoop [] = some [] := by
  rw [listLoop.eq_def]

theorem listLoop_cons_obj (m : List (String × GoVal)) (t : List GoVal) :
    listLoop (.obj m :: t) =
      (TransformJSON m).bind
        (fun tm => (listLoop t).bind (fun r => some (.obj tm :: r))) := by
  rw [listLoop.eq_def]
  rfl

theorem listLoop_cons_other (x : GoVal) (t : List GoVal) (hx : ∀ m, x ≠ .obj m) :
    listLoop (x :: t) = listLoop t := by
  rw [listLoop.eq_def]
  cases x with
  | obj m => exact absurd rfl (hx m)
  | null => rfl
  | bool b => rfl
  | num f => rfl
  | int n => rfl
  | str s => rfl
  | arr elems => rfl

theorem formatMap_obj (m : List (String × GoVal)) :
    FormatMap (.obj m) = (TransformJSON m).bind (fun t => some (.obj t)) := by
  rw [FormatMap.eq_def]
  rfl

theorem formatList_arr (l : List GoVal) :
    FormatList (.arr l) = (listLoop l).bind (fun r => some (.arr r)) := by
  rw [FormatList.eq_def]
  rfl

theorem applyRule_S (v : GoVal) : applyRule "S" v = FormatString v := by
  rw [applyRule.eq_def]
  simp

theorem applyRule_N (v : GoVal) : applyRule "N" v = FormatNum v := by
  rw [applyRule.eq_def]
  simp

theorem applyRule_BOOL (v : GoVal) : applyRule "BOOL" v = FormatBool v := by
  rw [applyRule.eq_def]
  simp

theorem applyRule_NULL (v : GoVal) : applyRule "NULL" v = FormatNull v := by
  rw [applyRule.eq_def]
  simp

theorem applyRule_M (v : GoVal) : applyRule "M" v = FormatMap v := by
  rw [applyRule.eq_def]
  simp

theorem applyRule_L (v : GoVal) : applyRule "L" v = FormatList v := by
  rw [applyRule.eq_def]
  simp

theorem formatString_str_isSome (s : String) :
    (FormatString (.str s)).isSome = true := by
  simp only [FormatString]
  cases parseRFC3339 s <;> simp

theorem formatNum_str_isSome (s : String) :
    (FormatNum (.str s)).isSome = true := by
  simp only [FormatNum]
  cases parseGoFloat s <;> simp

theorem formatBool_str_isSome (s : String) :
    (FormatBool (.str s)).isSome = true := by
  simp only [FormatBool]
  split <;> simp

theorem wellShapedMap_cons_rest (k : String) (v : GoVal)
    (t : List (String × GoVal)) (h : WellShapedMap ((k, v) :: t) = true) :
    WellShapedMap t = true := by
  rw [WellShapedMap.eq_def] at h
  simp at h
  exact h.2

theorem wellShapedMap_cons_obj (k : String) (inner t : List (String × GoVal))
    (hk : sanitizeKey k ≠ "") (h : WellShapedMap ((k, .obj inner) :: t) = true) :
    WellShapedInner inner = true := by
  rw [WellShapedMap.eq_def] at h
  simp [hk] at h
  exact h.1

theorem wellShapedInner_cons (k : String) (v : GoVal) (t : List (String × GoVal))
    (h : WellShapedInner ((k, v) :: t) = true) :
    WellShapedPayload (sanitizeKey k) v = true ∧ WellShapedInner t = true := by
  rw [WellShapedInner.eq_def] at h
  simp at h
  exact h

theorem wellShapedList_cons_obj (m : List (String × GoVal)) (t : List GoVal)
    (h : WellShapedList (.obj m :: t) = true) :
    WellShapedMap m = true ∧ WellShapedList t = true := by
  rw [WellShapedList.eq_def] at h
  simp at h
  exact h

theorem wellShapedList_cons_other (x : GoVal) (t : List GoVal)
    (hx : ∀ m, x ≠ .obj m) (h : WellShapedList (x :: t) = true) :
    WellShapedList t = true := by
  cases x with
  | obj m => exact absurd rfl (hx m)
  | null => rw [WellShapedList.eq_def] at h; exact h
  | bool b => rw [WellShapedList.eq_def] at h; exact h
  | num f => rw [WellShapedList.eq_def] at h; exact h
  | int n => rw [WellShapedList.eq_def] at h; exact h
  | str s => rw [WellShapedList.eq_def] at h; exact h
  | arr elems => rw [WellShapedList.eq_def] at h; exact h

theorem wellShapedPayload_str (tag : String) (v : GoVal)
    (htag : tag = "S" ∨ tag = "N" ∨ tag = "BOOL")
    (h : WellShapedPayload tag v = true) : ∃ s, v = .str s := by
  rw [WellShapedPayload.eq_def] at h
  have hstr : v.isStr = true := by
    rcases htag with h1 | h1 | h1 <;> rw [h1] at h <;> simpa using h
  cases v with
  | str s => exact ⟨s, rfl⟩
  | null => simp [GoVal.isStr] at hstr
  | bool b => simp [GoVal.isStr] at hstr
  | num f => simp [GoVal.isStr] at hstr
  | int n => simp [GoVal.isStr] at hstr
  | arr elems => simp [GoVal.isStr] at hstr
  | obj entries => simp [GoVal.isStr] at hstr

theorem wellShapedPayload_M_obj (m : List (String × GoVal))
    (h : WellShapedPayload "M" (.obj m) = true) : WellShapedMap m = true := by
  rw [WellShapedPayload.eq_def] at h
  simpa using h

theorem wellShapedPayload_M_not_obj (v : GoVal) (hv : ∀ m, v ≠ .obj m)
    (h : WellShapedPayload "M" v = true) : False := by
  rw [WellShapedPayload.eq_def] at h
  cases v with
  | obj m => exact absurd rfl (hv m)
  | null => simp at h
  | bool b => simp at h
  | num f => simp at h
  | int n => simp at h
  | str s => simp at h
  | arr elems => simp at h

theorem wellShapedPayload_L_arr (l : List GoVal)
    (h : WellShapedPayload "L" (.arr l) = true) : WellShapedList l = true := by
  rw [WellShapedPayload.eq_def] at h
  simpa using h

theorem wellShapedPayload_L_not_arr (v : GoVal) (hv : ∀ l, v ≠ .arr l)
    (h : WellShapedPayload "L" v = true) : False := by
  rw [WellShapedPayload.eq_def] at h
  cases v with
  | arr l => exact absurd rfl (hv l)
  | null => simp at h
  | bool b => simp at h
  | num f => simp at h
  | int n => simp at h
  | str s => simp at h
  | obj entries => simp at h

theorem wellShaped_totality :
    ∀ inputMap : List (String × GoVal),
      WellShapedMap inputMap = true → (TransformJSON inputMap).isSome = true := by
  refine TransformJSON.induct
    (fun input => WellShapedMap input = true → (TransformJSON input).isSome = true)
    (fun entries output => WellShapedMap entries = true →
      (transformLoop entries output).isSome = true)
    (fun key entries outMap => WellShapedInner entries = true →
      (innerLoop key entries outMap).isSome = true)
    (fun tag v => hasRule tag = true → WellShapedPayload tag v = true →
      (applyRule tag v).isSome = true)
    (fun v => WellShapedPayload "L" v = true → (FormatList v).isSome = true)
    (fun l => WellShapedList l = true → (listLoop l).isSome = true)
    (fun v => WellShapedPayload "M" v = true → (FormatMap v).isSome = true)
    ?_ ?_ ?_ ?_ ?_ ?_ ?_ ?_ ?_ ?_ ?_ ?_ ?_ ?_ ?_ ?_ ?_ ?_ ?_ ?_ ?_ ?_
  · intro input ih hw
    rw [transformJSON_def]
    exact ih hw
  · intro output _
    rw [transformLoop_nil]
    rfl
  · intro key value rest output key' hk ih hw
    rw [transformLoop_cons_empty key value rest output hk]
    exact ih (wellShapedMap_cons_rest key value rest hw)
  · intro key rest output key' hk val ih3 ih2 hw
    have hin : WellShapedInner val = true := wellShapedMap_cons_obj key val rest hk hw
    have hrest : WellShapedMap rest = true := wellShapedMap_cons_rest key (.obj val) rest hw
    rw [transformLoop_cons_obj key val rest output hk]
    obtain ⟨outMap, ho⟩ := Option.isSome_iff_exists.1 (ih3 hin)
    have ho' : innerLoop (sanitizeKey key) val [] = some outMap := ho
    rw [ho']
    exact ih2 outMap hrest
  · intro key value rest output key' hk hnobj ih hw
    rw [transformLoop_cons_other key value rest output hk (fun m he => hnobj m he)]
    exact ih (wellShapedMap_cons_rest key value rest hw)
  · intro key output _
    rw [innerLoop_nil]
    rfl
  · intro key k1 value rest output k' hr ih4 ih3 hw
    obtain ⟨hp, hrest⟩ := wellShapedInner_cons k1 value rest hw
    rw [innerLoop_cons_rule key k1 value rest output hr]
    obtain ⟨r, hrr⟩ := Option.isSome_iff_exists.1 (ih4 hr hp)
    have hrr' : applyRule (sanitizeKey k1) value = some r := hrr
    rw [hrr']
    exact ih3 r hrest
  · intro key k1 value rest output k' hnr ih hw
    have hnr' : hasRule (sanitizeKey k1) = false := by
      have h0 : ¬hasRule (sanitizeKey k1) = true := hnr
      revert h0
      cases hasRule (sanitizeKey k1) <;> simp
    rw [innerLoop_cons_norule key k1 value rest output hnr']
    exact ih (wellShapedInner_cons k1 value rest hw).2
  · intro v _ hp
    obtain ⟨s, rfl⟩ := wellShapedPayload_str "S" v (Or.inl rfl) hp
    rw [applyRule_S]
    exact formatString_str_isSome s
  · intro v _ _ hp
    obtain ⟨s, rfl⟩ := wellShapedPayload_str "N" v (Or.inr (Or.inl rfl)) hp
    rw [applyRule_N]
    exact formatNum_str_isSome s
  · intro v _ _ _ hp
    obtain ⟨s, rfl⟩ := wellShapedPayload_str "BOOL" v (Or.inr (Or.inr rfl)) hp
    rw [applyRule_BOOL]
    exact formatBool_str_isSome s
  · intro v _ _ _ _ _
    rw [applyRule_NULL]
    rfl
  · intro v _ _ _ _ ih7 _ hp
    rw [applyRule_M]
    exact ih7 hp
  · intro v _ _ _ _ _ ih5 _ hp
    rw [applyRule_L]
    exact ih5 hp
  · intro tag v h1 h2 h3 h4 h5 h6 hr _
    exfalso
    simp [hasRule, h1, h2, h3, h4, h5, h6] at hr
  · intro lv ih6 hp
    rw [formatList_arr]
    obtain ⟨r, hr⟩ :=
      Option.isSome_iff_exists.1 (ih6 (wellShapedPayload_L_arr lv hp))
    rw [hr]
    rfl
  · intro v hvnot hp
    exact (wellShapedPayload_L_not_arr v (fun l he => hvnot l he) hp).elim
  · intro _
    rw [listLoop_nil]
    rfl
  · intro rest val ih1 ih6 hw
    obtain ⟨hm, hrest⟩ := wellShapedList_cons_obj val rest hw
    rw [listLoop_cons_obj]
    obtain ⟨t, ht⟩ := Option.isSome_iff_exists.1 (ih1 hm)
    obtain ⟨r, hr⟩ := Option.isSome_iff_exists.1 (ih6 hrest)
    rw [ht, hr]
    rfl
  · intro item rest hnobj ih hw
    rw [listLoop_cons_other item rest (fun m he => hnobj m he)]
    exact ih (wellShapedList_cons_other item rest (fun m he => hnobj m he) hw)
  · intro val ih1 hp
    rw [formatMap_obj]
    obtain ⟨t, ht⟩ :=
      Option.isSome_iff_exists.1 (ih1 (wellShapedPayload_M_obj val hp))
    rw [ht]
    rfl
  · intro v hvnot hp
    exact (wellShapedPayload_M_not_obj v (fun m he => hvnot m he) hp).elim

/-- Claim C1 amended: TransformJSON succeeds with a plain object on every
well-shaped input, where well shaped means every payload reached through a
recognized tag has the shape that tag's rule asserts; entries with empty
sanitized keys, non-object values, unrecognized tags, or ill-shaped
payloads hidden behind them are omitted without failure.  (A wrong-shaped
payload under a recognized tag does make it fail: see the
counterexample.) -/
theorem c1_wellshaped_total (input : List (String × GoVal))
    (h : WellShapedMap input = true) : ∃ m, TransformJSON input = some m :=
  Option.isSome_iff_exists.1 (wellShaped_totality input h)

theorem c1_witness :
    ∃ m, TransformJSON [("a", .obj [("X", .str "y")]), ("b", .str "plain"),
      ("c", .obj [("NULL", .num .nan)])] = some m :=
  c1_wellshaped_total _ (by
    simp [WellShapedMap, WellShapedInner, WellShapedPayload, GoVal.isStr,
      hasRule, sanitizeKey, goTrimSpace, goTrimChars, goIsSpace])

theorem cleanMap_nil : CleanMap [] = true := by
  rw [CleanMap.eq_def]

theorem cleanMap_cons (k : String) (v : GoVal) (t : List (String × GoVal)) :
    CleanMap ((k, v) :: t) = (cleanKey k && CleanVal v && CleanMap t) := by
  rw [CleanMap.eq_def]

theorem cleanList_nil : CleanList [] = true := by
  rw [CleanList.eq_def]

theorem cleanList_cons (v : GoVal) (t : List GoVal) :
    CleanList (v :: t) = (CleanVal v && CleanList t) := by
  rw [CleanList.eq_def]

theorem cleanVal_null : CleanVal .null = true := by
  rw [CleanVal.eq_def]

theorem cleanVal_bool (b : Bool) : CleanVal (.bool b) = true := by
  rw [CleanVal.eq_def]

theorem cleanVal_num (f : GoFloat) : CleanVal (.num f) = true := by
  rw [CleanVal.eq_def]

theorem cleanVal_int (n : Int) : CleanVal (.int n) = true := by
  rw [CleanVal.eq_def]

theorem cleanVal_str (s : String) : CleanVal (.str s) = true := by
  rw [CleanVal.eq_def]

theorem cleanVal_obj (m : List (String × GoVal)) :
    CleanVal (.obj m) = CleanMap m := by
  rw [CleanVal.eq_def]

theorem cleanVal_arr (l : List GoVal) : CleanVal (.arr l) = CleanList l := by
  rw [CleanVal.eq_def]

theorem insertA_clean (k : String) (v : GoVal) :
    ∀ l : List (String × GoVal), CleanMap l = true → cleanKey k = true →
      CleanVal v = true → CleanMap (insertA k v l) = true := by
  intro l
  induction l with
  | nil =>
      intro _ hk hv
      simp [insertA, cleanMap_cons, cleanMap_nil, hk, hv]
  | cons a t ih =>
      intro hl hk hv
      obtain ⟨k', v'⟩ := a
      rw [cleanMap_cons, Bool.and_eq_true, Bool.and_eq_true] at hl
      by_cases he : k' = k
      · simp [insertA, he, cleanMap_cons, hk, hv, hl.2]
      · simp only [insertA, he, if_false]
        rw [cleanMap_cons, Bool.and_eq_true, Bool.and_eq_true]
        exact ⟨hl.1, ih hl.2 hk hv⟩

theorem foldl_insertA_clean :
    ∀ adds acc : List (String × GoVal), CleanMap acc = true → CleanMap adds = true →
      CleanMap (adds.foldl (fun acc kv => insertA kv.1 kv.2 acc) acc) = true := by
  intro adds
  induction adds with
  | nil => intro acc h _; simpa using h
  | cons a t ih =>
      intro acc hacc hadds
      obtain ⟨k, v⟩ := a
      rw [cleanMap_cons, Bool.and_eq_true, Bool.and_eq_true] at hadds
      rw [List.foldl_cons]
      exact ih _ (insertA_clean k v acc hacc hadds.1.1 hadds.1.2) hadds.2

theorem mergeA_clean (output adds : List (String × GoVal))
    (h1 : CleanMap output = true) (h2 : CleanMap adds = true) :
    CleanMap (mergeA output adds) = true :=
  foldl_insertA_clean adds output h1 h2

theorem output_keys_clean_all :
    ∀ input : List (String × GoVal), ∀ m,
      TransformJSON input = some m → CleanMap m = true := by
  refine TransformJSON.induct
    (fun input => ∀ m, TransformJSON input = some m → CleanMap m = true)
    (fun entries output => ∀ m, CleanMap output = true →
      transformLoop entries output = some m → CleanMap m = true)
    (fun key entries outMap => ∀ out, cleanKey key = true →
      CleanMap outMap = true → innerLoop key entries outMap = some out →
      CleanMap out = true)
    (fun tag v => ∀ r, applyRule tag v = some r → CleanVal r = true)
    (fun v => ∀ r, FormatList v = some r → CleanVal r = true)
    (fun l => ∀ res, listLoop l = some res → CleanList res = true)
    (fun v => ∀ r, FormatMap v = some r → CleanVal r = true)
    ?_ ?_ ?_ ?_ ?_ ?_ ?_ ?_ ?_ ?_ ?_ ?_ ?_ ?_ ?_ ?_ ?_ ?_ ?_ ?_ ?_ ?_
  · intro input ih m hm
    rw [transformJSON_def] at hm
    exact ih m cleanMap_nil hm
  · intro output m hout hm
    rw [transformLoop_nil] at hm
    rw [← Option.some.inj hm]
    exact hout
  · intro key value rest output key' hk ih m hout hm
    rw [transformLoop_cons_empty key value rest output hk] at hm
    exact ih m hout hm
  · intro key rest output key' hk val ih3 ih2 m hout hm
    rw [transformLoop_cons_obj key val rest output hk] at hm
    obtain ⟨outMap, ho, hrest⟩ := Option.bind_eq_some.1 hm
    have hck : cleanKey (sanitizeKey key) = true := cleanKey_sanitizeKey key hk
    have hOutClean : CleanMap outMap = true := ih3 outMap hck cleanMap_nil ho
    have hifClean : CleanMap
        (if 0 < outMap.length then mergeA output outMap else output) = true := by
      split
      · exact mergeA_clean output outMap hout hOutClean
      · exact hout
    exact ih2 outMap m hifClean hrest
  · intro key value rest output key' hk hnobj ih m hout hm
    rw [transformLoop_cons_other key value rest output hk (fun mm he => hnobj mm he)] at hm
    exact ih m hout hm
  · intro key output out _ hclean hm
    rw [innerLoop_nil] at hm
    rw [← Option.some.inj hm]
    exact hclean
  · intro key k1 value rest output k' hr ih4 ih3 out hck hclean hm
    rw [innerLoop_cons_rule key k1 value rest output hr] at hm
    obtain ⟨r, hrr, hrest⟩ := Option.bind_eq_some.1 hm
    have hcr : CleanVal r = true := ih4 r hrr
    exact ih3 r out hck (insertA_clean key r output hclean hck hcr) hrest
  · intro key k1 value rest output k' hnr ih out hck hclean hm
    have hnr' : hasRule (sanitizeKey k1) = false := by
      have h0 : ¬hasRule (sanitizeKey k1) = true := hnr
      revert h0
      cases hasRule (sanitizeKey k1) <;> simp
    rw [innerLoop_cons_norule key k1 value rest output hnr'] at hm
    exact ih out hck hclean hm
  · intro v r hr
    rw [applyRule_S] at hr
    cases v with
    | str s =>
        simp only [FormatString] at hr
        cases hp : parseRFC3339 s with
        | some t =>
            rw [hp] at hr
            exact Option.some.inj hr ▸ cleanVal_int t
        | none =>
            rw [hp] at hr
            exact Option.some.inj hr ▸ cleanVal_str s
    | null => simp [FormatString] at hr
    | bool b => simp [FormatString] at hr
    | num f => simp [FormatString] at hr
    | int n => simp [FormatString] at hr
    | arr elems => simp [FormatString] at hr
    | obj entries => simp [FormatString] at hr
  · intro v _ r hr
    rw [applyRule_N] at hr
    cases v with
    | str s =>
        simp only [FormatNum] at hr
        cases hp : parseGoFloat s with
        | some f =>
            rw [hp] at hr
            exact Option.some.inj hr ▸ cleanVal_num f
        | none =>
            rw [hp] at hr
            exact Option.some.inj hr ▸ cleanVal_num (.finite 0)
    | null => simp [FormatNum] at hr
    | bool b => simp [FormatNum] at hr
    | num f => simp [FormatNum] at hr
    | int n => simp [FormatNum] at hr
    | arr elems => simp [FormatNum] at hr
    | obj entries => simp [FormatNum] at hr
  · intro v _ _ r hr
    rw [applyRule_BOOL] at hr
    cases v with
    | str s =>
        simp only [FormatBool] at hr
        split at hr
        · exact Option.some.inj hr ▸ cleanVal_bool true
        · exact Option.some.inj hr ▸ cleanVal_bool false
    | null => simp [FormatBool] at hr
    | bool b => simp [FormatBool] at hr
    | num f => simp [FormatBool] at hr
    | int n => simp [FormatBool] at hr
    | arr elems => simp [FormatBool] at hr
    | obj entries => simp [FormatBool] at hr
  · intro v _ _ _ r hr
    rw [applyRule_NULL] at hr
    simp only [FormatNull] at hr
    exact Option.some.inj hr ▸ cleanVal_null
  · intro v _ _ _ _ ih7 r hr
    rw [applyRule_M] at hr
    exact ih7 r hr
  · intro v _ _ _ _ _ ih5 r hr
    rw [applyRule_L] at hr
    exact ih5 r hr
  · intro tag v h1 h2 h3 h4 h5 h6 r hr
    rw [applyRule.eq_def] at hr
    simp [h1, h2, h3, h4, h5, h6] at hr
  · intro lv ih6 r hr
    rw [formatList_arr] at hr
    obtain ⟨res, hres, hsome⟩ := Option.bind_eq_some.1 hr
    rw [← Option.some.inj hsome, cleanVal_arr]
    exact ih6 res hres
  · intro v hvnot r hr
    cases v with
    | arr l => exact absurd rfl (hvnot l)
    | null => rw [FormatList.eq_def] at hr; simp at hr
    | bool b => rw [FormatList.eq_def] at hr; simp at hr
    | num f => rw [FormatList.eq_def] at hr; simp at hr
    | int n => rw [FormatList.eq_def] at hr; simp at hr
    | str s => rw [FormatList.eq_def] at hr; simp at hr
    | obj entries => rw [FormatList.eq_def] at hr; simp at hr
  · intro res hm
    rw [listLoop_nil] at hm
    rw [← Option.some.inj hm]
    exact cleanList_nil
  · intro rest val ih1 ih6 res hm
    rw [listLoop_cons_obj] at hm
    obtain ⟨t, ht, h2⟩ := Option.bind_eq_some.1 hm
    obtain ⟨r, hrr, h3⟩ := Option.bind_eq_some.1 h2
    rw [← Option.some.inj h3, cleanList_cons, Bool.and_eq_true, cleanVal_obj]
    exact ⟨ih1 t ht, ih6 r hrr⟩
  · intro item rest hnobj ih res hm
    rw [listLoop_cons_other item rest (fun mm he => hnobj mm he)] at hm
    exact ih res hm
  · intro val ih1 r hr
    rw [formatMap_obj] at hr
    obtain ⟨t, ht, h2⟩ := Option.bind_eq_some.1 hr
    rw [← Option.some.inj h2, cleanVal_obj]
    exact ih1 t ht
  · intro v hvnot r hr
    cases v with
    | obj m => exact absurd rfl (hvnot m)
    | null => rw [FormatMap.eq_def] at hr; simp at hr
    | bool b => rw [FormatMap.eq_def] at hr; simp at hr
    | num f => rw [FormatMap.eq_def] at hr; simp at hr
    | int n => rw [FormatMap.eq_def] at hr; simp at hr
    | str s => rw [FormatMap.eq_def] at hr; simp at hr
    | arr elems => rw [FormatMap.eq_def] at hr; simp at hr

/-- Claim C9: every key of the object TransformJSON returns, at every
depth of nesting (including objects produced through the M and L rules),
is a nonempty string with no leading or trailing whitespace. -/
theorem c9_output_keys_clean (input m : List (String × GoVal))
    (h : TransformJSON input = some m) : CleanMap m = true :=
  output_keys_clean_all input m h

theorem c9_witness :
    CleanMap [("a", .obj [("b", .str "x")])] = true := by
  have h : TransformJSON [(" a ", .obj [("M", .obj [("b", .obj [("S", .str "x")])])])] =
      some [("a", .obj [("b", .str "x")])] := by
    simp [TransformJSON, transformLoop, innerLoop, applyRule, FormatString, hasRule,
      sanitizeKey, goTrimSpace, goTrimChars, goIsSpace, insertA, mergeA, parseRFC3339,
      FormatMap, FormatNum, FormatBool, FormatNull, FormatList, listLoop,
      twoDigits, digitVal]
  exact c9_output_keys_clean _ _ h

theorem c10_witness :
    FormatString (.str (String.mk
      (['2', '0', '2', '1', '-', '0', '1', '-', '0', '1', 'T',
        '0', '0', ':', '0', '0', ':', '0', '0', '.'] ++ '9' :: ([] ++ ['Z'])))) =
      some (.int 1609459200) :=
  c10_fractional_seconds_truncated '9' [] (by decide) (by intro c hc; cases hc)

end TransformSpec
